import Mathlib

/-!
# Verification of the pybotgram type compiler (src/compiler/types/compiler.py)

This file gives a shallow embedding, over `List Char` strings, of the
string-processing core of the schema-to-source compiler: type-token
resolution (`_gen_type` / `_get_type`), field type rendering
(`generate_field_type`, `generate_field_type_docstring`), dependency
collection (`generate_imports`), docstring rendering (`generate_docstring`),
field declaration rendering (`generate_fields`) and identifier
normalization (`camel_to_snake`), together with theorems settling the
specification claims about them.

Python strings are modelled as `List Char`; only ASCII inputs are relevant
to the claims, where Lean's `Char` operations agree with Python's.
The line-wrapping collaborator `textwrap.fill(text, initial_indent=i,
subsequent_indent=s, break_long_words=False, break_on_hyphens=False)` is an
external stdlib collaborator; rendering functions take it as an explicit
argument `fill : Str → Str → Str → Str` (text, initial indent, subsequent
indent) and all theorems hold for every such collaborator.
-/

/-- Python strings, modelled as their character lists. -/
abbrev Str := List Char

/-- Character list of a Lean string literal (used to write Python string
literals from the source). -/
def chars (s : String) : Str := s.toList

/-- Python `needle-list is an initial segment of s` (`str.startswith`),
with the pattern as the first argument. -/
def isPre : Str → Str → Bool
  | [], _ => true
  | _ :: _, [] => false
  | a :: as, b :: bs => a == b && isPre as bs

/-- Python `s.endswith(p)`. -/
def endsW (s p : Str) : Bool := isPre p.reverse s.reverse

/-- Python `s.replace(old, new, 1)` for nonempty `old`: replace the
leftmost occurrence of `old` (if any) by `new`. -/
def replace1 (s old new : Str) : Str :=
  match s with
  | [] => []
  | c :: rest =>
    if isPre old (c :: rest) then new ++ (c :: rest).drop old.length
    else c :: replace1 rest old new

/-- Fuel-driven scan behind `replaceAll`; the fuel only forces structural
recursion and is always at least the length of the scanned string. -/
def replaceAllF (new old : Str) : Nat → Str → Str
  | 0, s => s
  | fuel + 1, s =>
    match s with
    | [] => []
    | c :: rest =>
      if isPre old (c :: rest) then
        new ++ replaceAllF new old fuel ((c :: rest).drop old.length)
      else c :: replaceAllF new old fuel rest

/-- Python `s.replace(old, new)` for nonempty `old`: replace every
(leftmost-first, non-overlapping) occurrence of `old` by `new`. -/
def replaceAll (s old new : Str) : Str := replaceAllF new old s.length s

/-- Python `old in s` (substring occurrence test), for use in spec-side
statements. -/
def containsSub (s p : Str) : Bool :=
  match s with
  | [] => isPre p []
  | _ :: rest => isPre p s || containsSub rest p

/-- Python `sep.join(parts)`. -/
def strJoin (sep : Str) (parts : List Str) : Str := List.intercalate sep parts

/-!
## Schema data model (src/compiler/types/model.py)

Only `FieldModel` is consumed by the functions the claims are about.
-/

/-- Model `FieldModel` from model.py: a single field of a complex type
definition (its name, raw type tokens, required flag and description). -/
structure FieldModel where
  name : Str
  types : List Str
  required : Bool
  description : Str
  deriving DecidableEq

/-!
## Type-token resolution (compiler.py)
-/

/-- The fixed primitive table `TYPES_MAP` of compiler.py, as a lookup
function (`t in TYPES_MAP` / `TYPES_MAP[t]`). -/
def TYPES_MAP (t : Str) : Option Str :=
  if t = chars "String" then some (chars "str")
  else if t = chars "Integer" then some (chars "int")
  else if t = chars "Boolean" then some (chars "bool")
  else if t = chars "Float" then some (chars "float")
  else none

/-- Fuel-driven body of `_gen_type` (the inner helper of
`generate_field_type`); the fuel only forces structural recursion and is
always at least the token length. -/
def gen_typeF : Nat → Str → Str
  | 0, t => t
  | fuel + 1, t =>
    match TYPES_MAP t with
    | some v => v
    | none =>
      if isPre (chars "Array of") t then
        chars "list[" ++ gen_typeF fuel (t.drop (chars "Array of ").length) ++ chars "]"
      else t

/-- Helper `_gen_type` from `generate_field_type`: resolve one raw type token to
its target type expression (primitive table, recursive `Array of`
unwrapping producing `list[...]`, passthrough for references). -/
def gen_type (t : Str) : Str := gen_typeF (t.length + 1) t

/-- Fuel-driven body of `_get_type` (the inner helper of
`generate_field_type_docstring`). -/
def get_typeF : Nat → Str → Str
  | 0, t => t
  | fuel + 1, t =>
    match TYPES_MAP t with
    | some v => chars "``" ++ v ++ chars "``"
    | none =>
      if isPre (chars "Array of") t then
        chars "List of " ++ get_typeF fuel (t.drop (chars "Array of ").length)
      else chars ":obj:`~pybotgram.types." ++ t ++ chars "`"

/-- Helper `_get_type` from `generate_field_type_docstring`: resolve one raw type
token to its documentation expression. -/
def get_type (t : Str) : Str := get_typeF (t.length + 1) t

/-- Function `generate_field_type_docstring(field)`: the `" | "`-joined
documentation expressions of the field's tokens, with `", *optional*"`
appended when the field is not required. -/
def generate_field_type_docstring (field : FieldModel) : Str :=
  strJoin (chars " | ") (field.types.map get_type) ++
    (if field.required then [] else chars ", *optional*")

/-- Function `generate_field_type(field)`: the `" | "`-joined target expressions,
with the token `"None"` appended to (a copy of) the token list when the
field is not required. -/
def generate_field_type (field : FieldModel) : Str :=
  let field_types := field.types
  let field_types :=
    if field.required then field_types else field_types ++ [chars "None"]
  strJoin (chars " | ") (field_types.map gen_type)

/-- State-passing form of `generate_field_type` recording the field value
visible after the call: the source copies the token list
(`field_types = list(field.types)`) and appends `"None"` to that copy
only, so the field itself emerges unchanged. -/
def generate_field_type_upd (field : FieldModel) : Str × FieldModel :=
  let field_types := field.types
  let field_types :=
    if field.required then field_types else field_types ++ [chars "None"]
  (strJoin (chars " | ") (field_types.map gen_type), field)

/-!
## Dependency collection (`generate_imports`)
-/

/-- Helper `is_custom_type` from `generate_imports`: a token is custom
(non-primitive) iff it is not in `TYPES_MAP` and does not start with
`"Array of "`. -/
def is_custom_type (type_n : Str) : Bool :=
  (TYPES_MAP type_n).isNone && !isPre (chars "Array of ") type_n

/-- The per-token normalization inside the `generate_imports` loop: a
token starting with `"Array of "` has every occurrence of `"Array of "`
removed (`type_name.replace("Array of ", "")`). -/
def importTokenName (type_name : Str) : Str :=
  if isPre (chars "Array of ") type_name then
    replaceAll type_name (chars "Array of ") []
  else type_name

/-- Python string comparison `a <= b`: lexicographic by code point, a
strict initial segment comparing smaller. -/
def strLe : Str → Str → Bool
  | [], _ => true
  | _ :: _, [] => false
  | a :: as, b :: bs =>
    if a < b then true else if a = b then strLe as bs else false

/-- The order `sorted()` uses on Python strings, as a relation. -/
def pyLe (a b : Str) : Prop := strLe a b = true

instance : DecidableRel pyLe := fun a b => by unfold pyLe; infer_instance

/-- Python `sorted(l)` on a list of strings. -/
def pySorted (l : List Str) : List Str := List.insertionSort pyLe l

/-- Adding one element to a Python set, the set modelled as a list of its
elements in insertion order (deduplicated). -/
def setAdd (acc : List Str) (x : Str) : List Str :=
  if x ∈ acc then acc else acc ++ [x]

/-- The set `result` built by the two nested loops of `generate_imports`,
modelled as a deduplicated list; it is only ever read through `sorted()`,
which is insertion-order independent. -/
def importResultSet (fields : List FieldModel) : List Str :=
  fields.foldl
    (fun acc field =>
      field.types.foldl
        (fun acc type_name =>
          let type_name := importTokenName type_name
          if is_custom_type type_name then setAdd acc type_name else acc)
        acc)
    []

/-- Function `generate_imports(fields)`: the pair (typing import line, deferred
forward-reference import block), both empty when no custom type is
referenced. -/
def generate_imports (fields : List FieldModel) : Str × Str :=
  let result := importResultSet fields
  if result = [] then ([], [])
  else
    let types_import_line :=
      chars "    " ++ chars "from pybotgram.types import " ++
        strJoin (chars ", ") (pySorted result)
    let types_import_line :=
      chars "\n" ++ chars "if typing.TYPE_CHECKING:" ++ chars "\n" ++
        types_import_line ++ chars "\n"
    (chars "\n" ++ chars "import typing" ++ chars "\n", types_import_line)

/-- Spec-side dependency collector (§4.4 of the spec / claim C4): the
multiset of referenced names, collected declaratively — every field's
every token, normalized, kept when classified non-primitive. -/
def referencedNameList (fields : List FieldModel) : List Str :=
  ((fields.flatMap fun f => f.types).map importTokenName).filter
    (fun n => is_custom_type n)

/-!
## Docstring rendering (`generate_docstring`)

`textwrap.fill` is passed in as `fill text initial_indent subsequent_indent`.
-/

/-- The description loop of `generate_docstring`: each paragraph gets a
colon appended when it ends with `"of"`, is wrapped (unindented when
first, else 4-indented), and paragraphs are separated by one newline after
a `-` list item and a blank line otherwise, with no separator after the
last. -/
def descriptionPart (fill : Str → Str → Str → Str) :
    Bool → List Str → Str
  | _, [] => []
  | first, x :: rest =>
    let x := if endsW x (chars "of") then x ++ chars ":" else x
    fill x (if first then [] else chars "    ") (chars "    ") ++
      (if rest.isEmpty then []
       else if isPre (chars "-") x then chars "\n" else chars "\n\n") ++
      descriptionPart fill false rest

/-- The per-field loop of `generate_docstring`: the (possibly renamed)
field name with its documentation type expression as an 8-indented header,
a newline, the description (leading `Optional.`-marked text adjusted) as a
12-indented block, fields separated by blank lines with none after the
last. -/
def docstringFieldsPart (fill : Str → Str → Str → Str) :
    List FieldModel → Str
  | [] => []
  | field :: rest =>
    let field_name := field.name
    let field_name :=
      if field_name = chars "from" then chars "from_user" else field_name
    let field_type := generate_field_type_docstring field
    let field_header := field_name ++ chars " (" ++ field_type ++ chars "):"
    let field_description := field.description
    let field_description :=
      if isPre (chars "Optional.") field_description then
        replace1 field_description (chars "Optional. ") []
      else field_description
    fill field_header (chars "        ") (chars "        ") ++ chars "\n" ++
      fill field_description (chars "            ") (chars "            ") ++
      (if rest.isEmpty then [] else chars "\n\n") ++
      docstringFieldsPart fill rest

/-- Function `generate_docstring(description, fields)`: the wrapped description
paragraphs, a `Parameters:` header when at least one field exists, and the
per-field documentation entries. -/
def generate_docstring (fill : Str → Str → Str → Str)
    (description : List Str) (fields : List FieldModel) : Str :=
  descriptionPart fill true description ++
    (if fields.length > 0 then chars "\n\n    Parameters:\n" else []) ++
    docstringFieldsPart fill fields

/-!
## Field declaration rendering (`generate_fields`)
-/

/-- The loop of `generate_fields`: each field renders as
`name: type` plus ` = None` when optional, 4-indented except the first,
one per line with no trailing newline. -/
def fieldsPart : Bool → List FieldModel → Str
  | _, [] => []
  | first, field :: rest =>
    let field_name := field.name
    let field_name :=
      if field_name = chars "from" then chars "from_user" else field_name
    let field_type := generate_field_type field
    let field_value := if field.required then [] else chars " = None"
    (if first then [] else chars "    ") ++
      field_name ++ chars ": " ++ field_type ++ field_value ++
      (if rest.isEmpty then [] else chars "\n") ++
      fieldsPart false rest

/-- Function `generate_fields(fields)`. -/
def generate_fields (fields : List FieldModel) : Str :=
  fieldsPart true fields

/-- A trivial wrapping collaborator (returns the text unwrapped and
unindented), used to exercise the renderers on closed inputs. -/
def rawFill : Str → Str → Str → Str := fun text _ _ => text

/-!
## Identifier normalization (`camel_to_snake`)

The two `re.sub` passes are modelled as direct left-to-right scans with
the exact match/replace/resume semantics of `re.sub` for these two
patterns; `[A-Z]`, `[a-z]`, `[0-9]` and `str.lower()` are the ASCII
ranges, which is all the schema names exercise.
-/

/-- Class `[A-Z]` (ASCII codes 65-90). -/
def isUp (c : Char) : Bool := 65 ≤ c.toNat && c.toNat ≤ 90

/-- Class `[a-z]` (ASCII codes 97-122). -/
def isLo (c : Char) : Bool := 97 ≤ c.toNat && c.toNat ≤ 122

/-- Class `[0-9]` (ASCII codes 48-57). -/
def isDig (c : Char) : Bool := 48 ≤ c.toNat && c.toNat ≤ 57

/-- Python `str.lower()` on one character (ASCII). -/
def pyLower (c : Char) : Char :=
  if isUp c then Char.ofNat (c.toNat + 32) else c

/-- Fuel-driven scan for `re.sub(r"(.)([A-Z][a-z]+)", r"\1_\2", s)`: at
each position try to match any character, an upper-case letter and a
maximal nonempty lower-case run; on a match emit the group pair joined by
an underscore and resume after the match, else advance one character. -/
def sub1F : Nat → Str → Str
  | 0, s => s
  | _, [] => []
  | fuel + 1, c :: rest =>
    match rest with
    | [] => [c]
    | u :: more =>
      if isUp u then
        if (more.takeWhile isLo).isEmpty then c :: sub1F fuel (u :: more)
        else
          c :: '_' :: u ::
            (more.takeWhile isLo ++ sub1F fuel (more.dropWhile isLo))
      else c :: sub1F fuel (u :: more)

/-- First substitution pass of `camel_to_snake`. -/
def sub1 (s : Str) : Str := sub1F s.length s

/-- Scan for `re.sub(r"([a-z0-9])([A-Z])", r"\1_\2", s)`: a lower-case
letter or digit followed by an upper-case letter gets an underscore
inserted between them, resuming after the matched pair. -/
def sub2 : Str → Str
  | [] => []
  | [c] => [c]
  | a :: b :: rest =>
    if (isLo a || isDig a) && isUp b then a :: '_' :: b :: sub2 rest
    else a :: sub2 (b :: rest)

/-- Function `camel_to_snake(name)`: the two substitution passes followed by
`.lower()`. -/
def camel_to_snake (name : Str) : Str :=
  (sub2 (sub1 name)).map pyLower

/-!
## Spec-side definitions

Independent formulations of what the specification claims, to be compared
with the source-embedded functions above.
-/

/-- Claim-side reading of "ends in the word `of`" (a standalone word): the
text is the word itself or ends in `" of"`. -/
def endsWordOf (s : Str) : Bool := s == chars "of" || endsW s (chars " of")

/-- Index of the leftmost occurrence of `p` in `s`, if any. -/
def subIndex? (s p : Str) : Option Nat :=
  if isPre p s then some 0
  else
    match s with
    | [] => none
    | _ :: rest => (subIndex? rest p).map (· + 1)

/-- Remove the leftmost occurrence of `p` from `s` (spec-side, by
occurrence index), leaving `s` unchanged when `p` does not occur. -/
def removeFirstOcc (s p : Str) : Str :=
  match subIndex? s p with
  | none => s
  | some i => s.take i ++ s.drop (i + p.length)

/-- Claim C3's predicted rendered description: the leading
`"Optional. "` marker removed when the description begins with it, and the
description unchanged otherwise. -/
def claimLeadingStrip (s : Str) : Str :=
  if isPre (chars "Optional. ") s then s.drop (chars "Optional. ").length
  else s

/-- The characters of a capitalized word given as (initial, rest). -/
def wordChars (w : Char × List Char) : Str := w.1 :: w.2

/-- A capitalized word: an upper-case initial followed by one or more
lower-case letters. -/
def goodWord (w : Char × List Char) : Prop :=
  isUp w.1 = true ∧ w.2 ≠ [] ∧ ∀ c ∈ w.2, isLo c = true

/-- Concatenation of capitalized words without separators. -/
def wordsChars (ws : List (Char × List Char)) : Str :=
  (ws.map wordChars).flatten

/-- The lowercase, underscore-joined form of a word sequence (the
spec-side expected output of identifier normalization). -/
def snakeOfWords (ws : List (Char × List Char)) : Str :=
  strJoin (chars "_") (ws.map fun w => (wordChars w).map pyLower)

/-- The output shape of the first substitution pass on a word sequence:
words are joined in pairs by an underscore (the first pass consumes the
word following each match, so it only separates alternating boundaries). -/
def sub1Chain : List (Char × List Char) → Str
  | [] => []
  | [w] => wordChars w
  | w1 :: w2 :: rest => wordChars w1 ++ '_' :: wordChars w2 ++ sub1Chain rest

/-!
## Helper lemmas
-/

theorem isPre_append (p s : Str) : isPre p (p ++ s) = true := by
  induction p with
  | nil => rfl
  | cons a as ih => simp [isPre, ih]

theorem isPre_length_le {p s : Str} (h : isPre p s = true) :
    p.length ≤ s.length := by
  induction p generalizing s with
  | nil => simp
  | cons a as ih =>
    cases s with
    | nil => simp [isPre] at h
    | cons b bs =>
      simp only [isPre, Bool.and_eq_true] at h
      simpa [List.length_cons] using ih h.2

theorem isPre_nonempty_nil (a : Char) (p : Str) :
    isPre (a :: p) [] = false := rfl

theorem TYPES_MAP_cons_none {c : Char} (l : Str) (h1 : c ≠ 'S')
    (h2 : c ≠ 'I') (h3 : c ≠ 'B') (h4 : c ≠ 'F') :
    TYPES_MAP (c :: l) = none := by
  unfold TYPES_MAP
  rw [if_neg, if_neg, if_neg, if_neg]
  · intro h
    rw [show chars "Float" = 'F' :: chars "loat" from rfl] at h
    exact h4 (List.head_eq_of_cons_eq h)
  · intro h
    rw [show chars "Boolean" = 'B' :: chars "oolean" from rfl] at h
    exact h3 (List.head_eq_of_cons_eq h)
  · intro h
    rw [show chars "Integer" = 'I' :: chars "nteger" from rfl] at h
    exact h2 (List.head_eq_of_cons_eq h)
  · intro h
    rw [show chars "String" = 'S' :: chars "tring" from rfl] at h
    exact h1 (List.head_eq_of_cons_eq h)

theorem strJoin_nil (sep : Str) : strJoin sep [] = [] := rfl

theorem strJoin_single (sep x : Str) : strJoin sep [x] = x := by
  simp [strJoin, List.intercalate]

theorem strJoin_cons₂ (sep x y : Str) (rest : List Str) :
    strJoin sep (x :: y :: rest) = x ++ sep ++ strJoin sep (y :: rest) := by
  simp [strJoin, List.intercalate, List.intersperse_cons_cons]

/-- Equal singleton-append tails force equal last elements. -/
theorem last_of_append_singleton {l₁ l₂ : Str} {a b : Char}
    (h : l₁ ++ [a] = l₂ ++ [b]) : a = b := by
  have := congrArg List.reverse h
  simp only [List.reverse_append, List.reverse_cons, List.reverse_nil,
    List.nil_append, List.singleton_append] at this
  exact (List.head_eq_of_cons_eq this)

/-!
## Unfolding equations for the fuel-driven resolvers
-/

theorem gen_typeF_succ (n : Nat) (t : Str) :
    gen_typeF (n + 1) t =
      match TYPES_MAP t with
      | some v => v
      | none =>
        if isPre (chars "Array of") t then
          chars "list[" ++ gen_typeF n (t.drop (chars "Array of ").length) ++ chars "]"
        else t := rfl

theorem get_typeF_succ (n : Nat) (t : Str) :
    get_typeF (n + 1) t =
      match TYPES_MAP t with
      | some v => chars "``" ++ v ++ chars "``"
      | none =>
        if isPre (chars "Array of") t then
          chars "List of " ++ get_typeF n (t.drop (chars "Array of ").length)
        else chars ":obj:`~pybotgram.types." ++ t ++ chars "`" := rfl

theorem gen_typeF_of_le :
    ∀ (fuel : Nat) (t : Str), t.length + 1 ≤ fuel →
      gen_typeF fuel t = gen_type t := by
  intro fuel
  induction fuel using Nat.strong_induction_on with
  | _ fuel ih =>
    intro t hle
    match fuel with
    | 0 => omega
    | fuel + 1 =>
      rw [show gen_type t = gen_typeF (t.length + 1) t from rfl,
        gen_typeF_succ, gen_typeF_succ]
      cases h : TYPES_MAP t with
      | some v => rfl
      | none =>
        by_cases hp : isPre (chars "Array of") t = true
        · simp only [hp, if_true]
          have h8 : (chars "Array of").length ≤ t.length := isPre_length_le hp
          have h8' : (8:Nat) ≤ t.length := by
            simpa using h8
          have hd : (t.drop (chars "Array of ").length).length + 1 ≤ t.length := by
            simp only [List.length_drop]
            have : (chars "Array of ").length = 9 := rfl
            omega
          rw [ih fuel (Nat.lt_succ_self fuel) _ (by omega),
            ih t.length (by omega) _ hd]
        · simp [hp]

theorem get_typeF_of_le :
    ∀ (fuel : Nat) (t : Str), t.length + 1 ≤ fuel →
      get_typeF fuel t = get_type t := by
  intro fuel
  induction fuel using Nat.strong_induction_on with
  | _ fuel ih =>
    intro t hle
    match fuel with
    | 0 => omega
    | fuel + 1 =>
      rw [show get_type t = get_typeF (t.length + 1) t from rfl,
        get_typeF_succ, get_typeF_succ]
      cases h : TYPES_MAP t with
      | some v => rfl
      | none =>
        by_cases hp : isPre (chars "Array of") t = true
        · simp only [hp, if_true]
          have h8 : (chars "Array of").length ≤ t.length := isPre_length_le hp
          have h8' : (8:Nat) ≤ t.length := by
            simpa using h8
          have hd : (t.drop (chars "Array of ").length).length + 1 ≤ t.length := by
            simp only [List.length_drop]
            have : (chars "Array of ").length = 9 := rfl
            omega
          rw [ih fuel (Nat.lt_succ_self fuel) _ (by omega),
            ih t.length (by omega) _ hd]
        · simp [hp]

theorem gen_type_eq (t : Str) :
    gen_type t =
      match TYPES_MAP t with
      | some v => v
      | none =>
        if isPre (chars "Array of") t then
          chars "list[" ++ gen_type (t.drop (chars "Array of ").length) ++ chars "]"
        else t := by
  rw [show gen_type t = gen_typeF (t.length + 1) t from rfl, gen_typeF_succ]
  cases h : TYPES_MAP t with
  | some v => rfl
  | none =>
    by_cases hp : isPre (chars "Array of") t = true
    · simp only [hp, if_true]
      have h8 : (chars "Array of").length ≤ t.length := isPre_length_le hp
      have h8' : (8:Nat) ≤ t.length := by simpa using h8
      rw [gen_typeF_of_le t.length _
        (by simp only [List.length_drop]
            have : (chars "Array of ").length = 9 := rfl
            omega)]
    · simp [hp]

theorem get_type_eq (t : Str) :
    get_type t =
      match TYPES_MAP t with
      | some v => chars "``" ++ v ++ chars "``"
      | none =>
        if isPre (chars "Array of") t then
          chars "List of " ++ get_type (t.drop (chars "Array of ").length)
        else chars ":obj:`~pybotgram.types." ++ t ++ chars "`" := by
  rw [show get_type t = get_typeF (t.length + 1) t from rfl, get_typeF_succ]
  cases h : TYPES_MAP t with
  | some v => rfl
  | none =>
    by_cases hp : isPre (chars "Array of") t = true
    · simp only [hp, if_true]
      have h8 : (chars "Array of").length ≤ t.length := isPre_length_le hp
      have h8' : (8:Nat) ≤ t.length := by simpa using h8
      rw [get_typeF_of_le t.length _
        (by simp only [List.length_drop]
            have : (chars "Array of ").length = 9 := rfl
            omega)]
    · simp [hp]

/-!
## Resolution facts: primitives and array unwrapping
-/

theorem TYPES_MAP_array_none (t : Str) :
    TYPES_MAP (chars "Array of " ++ t) = none := by
  rw [show chars "Array of " ++ t = 'A' :: (chars "rray of " ++ t) from rfl]
  exact TYPES_MAP_cons_none _ (by decide) (by decide) (by decide) (by decide)

theorem isPre_array (t : Str) :
    isPre (chars "Array of") (chars "Array of " ++ t) = true := by
  rw [show chars "Array of " ++ t = chars "Array of" ++ (' ' :: t) from rfl]
  exact isPre_append _ _

theorem gen_type_array (t : Str) :
    gen_type (chars "Array of " ++ t) = chars "list[" ++ gen_type t ++ chars "]" := by
  rw [gen_type_eq, TYPES_MAP_array_none, isPre_array]
  simp only [if_true]
  rw [show (chars "Array of ").length = (chars "Array of " : Str).length from rfl,
    List.drop_left]

theorem get_type_array (t : Str) :
    get_type (chars "Array of " ++ t) = chars "List of " ++ get_type t := by
  rw [get_type_eq, TYPES_MAP_array_none, isPre_array]
  simp only [if_true]
  rw [show (chars "Array of ").length = (chars "Array of " : Str).length from rfl,
    List.drop_left]

theorem gen_type_double_array (t : Str) :
    gen_type (chars "Array of Array of " ++ t) =
      chars "list[list[" ++ gen_type t ++ chars "]]" := by
  rw [show chars "Array of Array of " ++ t =
      chars "Array of " ++ (chars "Array of " ++ t) by
        rw [← List.append_assoc]; rfl,
    gen_type_array, gen_type_array,
    show (chars "list[list[" : Str) = chars "list[" ++ chars "list[" from rfl,
    show (chars "]]" : Str) = chars "]" ++ chars "]" from rfl]
  simp [List.append_assoc]

/-!
## Suffix structure of documentation expressions
-/

theorem get_type_ends_backtick (t : Str) :
    ∃ u, get_type t = u ++ chars "`" := by
  suffices h : ∀ (n : Nat) (t : Str), t.length ≤ n → ∃ u, get_type t = u ++ chars "`" from
    h t.length t le_rfl
  intro n
  induction n using Nat.strong_induction_on with
  | _ n ih =>
    intro t hle
    rw [get_type_eq]
    cases h : TYPES_MAP t with
    | some v =>
      exact ⟨chars "``" ++ v ++ chars "`",
        by simp [List.append_assoc,
          show (chars "``" : Str) = chars "`" ++ chars "`" from rfl]⟩
    | none =>
      by_cases hp : isPre (chars "Array of") t = true
      · simp only [hp, if_true]
        have h8 : (chars "Array of").length ≤ t.length := isPre_length_le hp
        have h8' : (8:Nat) ≤ t.length := by simpa using h8
        have h9 : (chars "Array of ").length = 9 := rfl
        obtain ⟨u, hu⟩ := ih (t.length - 9) (by omega)
          (t.drop (chars "Array of ").length)
          (by simp only [List.length_drop, h9]; omega)
        rw [hu]
        exact ⟨chars "List of " ++ u, by simp [List.append_assoc]⟩
      · simp only [hp, if_false]
        exact ⟨chars ":obj:`~pybotgram.types." ++ t, by simp [List.append_assoc]⟩

theorem strJoin_ends_backtick :
    ∀ (l : List Str), l ≠ [] → (∀ x ∈ l, ∃ u, x = u ++ chars "`") →
      ∃ u, strJoin (chars " | ") l = u ++ chars "`" := by
  intro l
  induction l with
  | nil => intro h; exact absurd rfl h
  | cons x rest ih =>
    intro _ hall
    cases rest with
    | nil =>
      rw [strJoin_single]
      exact hall x (by simp)
    | cons y rest2 =>
      rw [strJoin_cons₂]
      obtain ⟨u, hu⟩ := ih (by simp) (fun z hz => hall z (by simp [hz]))
      rw [hu]
      exact ⟨x ++ chars " | " ++ u, by simp [List.append_assoc]⟩

theorem docJoin_not_ends_optional (types : List Str) :
    ¬ ∃ u, strJoin (chars " | ") (types.map get_type) = u ++ chars ", *optional*" := by
  rintro ⟨u, hu⟩
  cases types with
  | nil =>
    have := congrArg List.length hu
    simp [strJoin_nil] at this
    rw [show (chars ", *optional*").length = 12 from rfl] at this
    omega
  | cons t rest =>
    obtain ⟨w, hw⟩ := strJoin_ends_backtick ((t :: rest).map get_type)
      (by simp) (by rintro z hz; simp only [List.mem_map] at hz
                    obtain ⟨a, _, rfl⟩ := hz; exact get_type_ends_backtick a)
    rw [hw] at hu
    rw [show (chars ", *optional*" : Str) =
      chars ", *optional" ++ ['*'] from rfl, ← List.append_assoc,
      show (chars "`" : Str) = ['`'] from rfl] at hu
    have : ('`' : Char) = '*' := last_of_append_singleton hu
    exact absurd this (by decide)

theorem strJoin_append_singleton (sep x : Str) :
    ∀ (l : List Str), strJoin sep (l ++ [x]) =
      (if l.isEmpty then [] else strJoin sep l ++ sep) ++ x := by
  intro l
  induction l with
  | nil => simp [strJoin_single]
  | cons a rest ih =>
    cases rest with
    | nil =>
      rw [show ([a] : List Str) ++ [x] = [a, x] from rfl, strJoin_cons₂,
        strJoin_single, strJoin_single]
      simp
    | cons b rest2 =>
      rw [show ((a :: b :: rest2 : List Str) ++ [x]) =
        a :: ((b :: rest2) ++ [x]) from rfl]
      rw [show (a :: ((b :: rest2 : List Str) ++ [x])) =
        a :: (b :: (rest2 ++ [x])) from rfl, strJoin_cons₂]
      rw [show (b :: (rest2 ++ [x]) : List Str) = (b :: rest2) ++ [x] from rfl, ih]
      simp [strJoin_cons₂, List.append_assoc]

/-!
## Claim C7 — primitive tokens resolve through the fixed table
-/

/-- C7: for each of the four primitive tokens String, Integer, Boolean and
Float, `generate_field_type` resolves the token to exactly the fixed
table's mapped target expression (str, int, bool, float), and no token
other than those four maps through the table. -/
theorem c7_primitive_table (nm d : Str) :
    (generate_field_type ⟨nm, [chars "String"], true, d⟩ = chars "str" ∧
      generate_field_type ⟨nm, [chars "Integer"], true, d⟩ = chars "int" ∧
      generate_field_type ⟨nm, [chars "Boolean"], true, d⟩ = chars "bool" ∧
      generate_field_type ⟨nm, [chars "Float"], true, d⟩ = chars "float") ∧
    (TYPES_MAP (chars "String") = some (chars "str") ∧
      TYPES_MAP (chars "Integer") = some (chars "int") ∧
      TYPES_MAP (chars "Boolean") = some (chars "bool") ∧
      TYPES_MAP (chars "Float") = some (chars "float")) ∧
    ∀ t : Str, t ≠ chars "String" → t ≠ chars "Integer" →
      t ≠ chars "Boolean" → t ≠ chars "Float" → TYPES_MAP t = none := by
  refine ⟨⟨?_, ?_, ?_, ?_⟩, by decide, ?_⟩
  · simp only [generate_field_type]
    decide
  · simp only [generate_field_type]
    decide
  · simp only [generate_field_type]
    decide
  · simp only [generate_field_type]
    decide
  · intro t h1 h2 h3 h4
    simp [TYPES_MAP, h1, h2, h3, h4]

/-- Witness for C7 at the concrete non-primitive token `"User"`. -/
theorem c7_witness : TYPES_MAP (chars "User") = none :=
  (c7_primitive_table [] []).2.2 (chars "User")
    (by decide) (by decide) (by decide) (by decide)

/-!
## Claim C6 — array tokens unwrap recursively
-/

/-- C6: a token `Array of Array of T` resolves to `list[list[R]]` where
`R` is the resolution of `T`, both array levels being unwrapped in the one
resolution call; one level of `Array of ` wrapping always resolves to one
`list[...]` layer, so unwrapping recurses to any nesting depth. -/
theorem c6_array_unwrapping (nm d t : Str) :
    generate_field_type ⟨nm, [chars "Array of Array of " ++ t], true, d⟩ =
        chars "list[list[" ++ gen_type t ++ chars "]]" ∧
    gen_type (chars "Array of Array of " ++ t) =
        chars "list[list[" ++ gen_type t ++ chars "]]" ∧
    gen_type (chars "Array of " ++ t) =
        chars "list[" ++ gen_type t ++ chars "]" := by
  refine ⟨?_, gen_type_double_array t, gen_type_array t⟩
  simp only [generate_field_type, if_true, List.map_cons, List.map_nil]
  rw [strJoin_single, gen_type_double_array]

/-!
## Claim C1 — optional fields get the absent marker and the optional tag
-/

/-- C1: the target expression of a field is the union of its resolved
tokens with the absent marker `None` appended as the final member exactly
when the field is not required (the token `None` resolving to itself), and
the documentation expression is the `" | "`-joined members with
`", *optional*"` appended exactly once when the field is not required and
never otherwise (the joined members never end in the marker themselves). -/
theorem c1_optional_markers (f : FieldModel) :
    generate_field_type f =
      strJoin (chars " | ")
        ((f.types ++ (if f.required then [] else [chars "None"])).map gen_type) ∧
    gen_type (chars "None") = chars "None" ∧
    generate_field_type_docstring f =
      generate_field_type_docstring { f with required := true } ++
        (if f.required then [] else chars ", *optional*") ∧
    (¬ ∃ u, generate_field_type_docstring { f with required := true } =
        u ++ chars ", *optional*") ∧
    (f.required = false →
      ∃ pre, generate_field_type f = pre ++ chars "None") := by
  refine ⟨?_, by decide, ?_, ?_, ?_⟩
  · cases hreq : f.required <;> simp [generate_field_type, hreq]
  · cases hreq : f.required <;>
      simp [generate_field_type_docstring, hreq]
  · simpa [generate_field_type_docstring] using
      docJoin_not_ends_optional f.types
  · intro hreq
    simp only [generate_field_type, hreq, Bool.false_eq_true, if_false,
      List.map_append]
    rw [show List.map gen_type [chars "None"] = [chars "None"] from by decide,
      strJoin_append_singleton]
    exact ⟨_, rfl⟩

/-- Witness for C1 at a concrete optional field. -/
theorem c1_witness :
    ∃ pre, generate_field_type
        ⟨chars "reply", [chars "Message"], false, chars "d"⟩ =
      pre ++ chars "None" :=
  (c1_optional_markers ⟨chars "reply", [chars "Message"], false, chars "d"⟩).2.2.2.2
    rfl

/-!
## Claim C10 — `generate_field_type` does not mutate its argument
-/

/-- C10: `generate_field_type` appends the absent marker to a copy of the
field's token list, so the field visible after the call is unchanged (all
attributes, in particular `types`), the returned expression agrees with
`generate_field_type`, and `generate_field_type_docstring` yields the same
value on the field before and after the call. -/
theorem c10_no_mutation (f : FieldModel) :
    (generate_field_type_upd f).2 = f ∧
    (generate_field_type_upd f).2.types = f.types ∧
    (generate_field_type_upd f).1 = generate_field_type f ∧
    generate_field_type_docstring (generate_field_type_upd f).2 =
      generate_field_type_docstring f :=
  ⟨rfl, rfl, rfl, rfl⟩

/-!
## Affix characterizations
-/

theorem isPre_iff (p : Str) : ∀ s : Str, isPre p s = true ↔ ∃ v, s = p ++ v := by
  induction p with
  | nil =>
    intro s
    simp [isPre]
  | cons a as ih =>
    intro s
    cases s with
    | nil =>
      simp [isPre]
    | cons b bs =>
      simp only [isPre, Bool.and_eq_true, beq_iff_eq, ih, List.cons_append,
        List.cons.injEq]
      constructor
      · rintro ⟨rfl, v, rfl⟩
        exact ⟨v, rfl, rfl⟩
      · rintro ⟨v, rfl, rfl⟩
        exact ⟨rfl, v, rfl⟩

theorem endsW_iff (s p : Str) : endsW s p = true ↔ ∃ u, s = u ++ p := by
  unfold endsW
  rw [isPre_iff]
  constructor
  · rintro ⟨v, hv⟩
    refine ⟨v.reverse, ?_⟩
    rw [← List.reverse_reverse s, hv]
    simp
  · rintro ⟨u, rfl⟩
    exact ⟨u.reverse, by simp⟩

theorem removeFirstOcc_of_isPre {s old : Str} (h : isPre old s = true) :
    removeFirstOcc s old = s.drop old.length := by
  unfold removeFirstOcc
  rw [subIndex?.eq_def, if_pos h]
  simp

theorem removeFirstOcc_cons_of_not {old : Str} {c : Char} {rest : Str}
    (h : ¬ isPre old (c :: rest) = true) :
    removeFirstOcc (c :: rest) old = c :: removeFirstOcc rest old := by
  unfold removeFirstOcc
  rw [subIndex?.eq_def, if_neg h]
  cases h2 : subIndex? rest old with
  | none => simp [h2]
  | some i =>
    simp only [h2, Option.map_some']
    rw [List.take_succ_cons,
      show i + 1 + old.length = (i + old.length) + 1 by omega,
      List.drop_succ_cons]
    simp

theorem replace1_eq_removeFirstOcc (old : Str) :
    ∀ s : Str, replace1 s old [] = removeFirstOcc s old := by
  intro s
  induction s with
  | nil =>
    by_cases h : isPre old [] = true
    · have hold : old = [] := by
        cases old with
        | nil => rfl
        | cons a as => simp [isPre] at h
      subst hold
      rw [removeFirstOcc_of_isPre h]
      rfl
    · unfold removeFirstOcc
      rw [subIndex?.eq_def, if_neg h]
      rfl
  | cons c rest ih =>
    by_cases h : isPre old (c :: rest) = true
    · rw [removeFirstOcc_of_isPre h]
      unfold replace1
      rw [if_pos h]
      simp
    · rw [removeFirstOcc_cons_of_not h]
      unfold replace1
      rw [if_neg h, ih]

/-!
## Claim C2 — the colon-before-wrapping condition
-/

/-- C2 (counterexample): the paragraph `"proof"` does not end in the
standalone word `of`, yet `generate_docstring` appends a colon to it
before wrapping, refuting the claim that the colon is appended only for
paragraphs ending in the standalone word. -/
theorem c2_counterexample :
    generate_docstring rawFill [chars "proof"] [] = chars "proof:" ∧
    endsWordOf (chars "proof") = false ∧
    chars "proof" ≠ chars "of" ∧
    ¬ ∃ u : Str, chars "proof" = u ++ chars " of" := by
  refine ⟨by decide, by decide, by decide, ?_⟩
  rw [← endsW_iff]
  decide

/-- C2 (amended): in `generate_docstring` a description paragraph has a
colon appended before wrapping if and only if it ends with the two-letter
suffix `of` — whether or not that suffix is the standalone word `of` —
and ending with the suffix is exactly having the shape `u ++ "of"`. -/
theorem c2_amended_colon_iff_suffix (fill : Str → Str → Str → Str) (x : Str) :
    generate_docstring fill [x] [] =
      fill (if endsW x (chars "of") then x ++ chars ":" else x) []
        (chars "    ") ∧
    (endsW x (chars "of") = true ↔ ∃ u, x = u ++ chars "of") := by
  constructor
  · simp [generate_docstring, descriptionPart, docstringFieldsPart]
  · exact endsW_iff x (chars "of")

/-!
## Claim C3 — the `Optional. ` marker stripping
-/

/-- C3 (counterexample): the description `"Optional.A Optional. B"` does
not begin with the marker `"Optional. "`, so the claim predicts it renders
unchanged; the code, whose guard only checks the shorter `"Optional."`,
removes the later, non-leading occurrence of `"Optional. "` instead. -/
theorem c3_counterexample :
    generate_docstring rawFill []
        [⟨chars "x", [chars "String"], true, chars "Optional.A Optional. B"⟩] =
      chars "\n\n    Parameters:\nx (``str``):\nOptional.A B" ∧
    claimLeadingStrip (chars "Optional.A Optional. B") =
      chars "Optional.A Optional. B" ∧
    chars "Optional.A B" ≠ chars "Optional.A Optional. B" :=
  ⟨by decide, by decide, by decide⟩

/-- C3 (amended): the rendered description of a field equals its
description with the leftmost occurrence of `"Optional. "` (wherever it
occurs) removed when the description begins with `"Optional."`, and equals
the description unchanged otherwise; when the description begins with the
full marker `"Optional. "`, exactly that leading marker is removed. -/
theorem c3_amended_description_strip (fill : Str → Str → Str → Str)
    (f : FieldModel) :
    generate_docstring fill [] [f] =
      chars "\n\n    Parameters:\n" ++
        fill ((if f.name = chars "from" then chars "from_user" else f.name) ++
            chars " (" ++ generate_field_type_docstring f ++ chars "):")
          (chars "        ") (chars "        ") ++ chars "\n" ++
        fill (if isPre (chars "Optional.") f.description then
            removeFirstOcc f.description (chars "Optional. ")
          else f.description)
          (chars "            ") (chars "            ") ∧
    (isPre (chars "Optional. ") f.description = true →
      removeFirstOcc f.description (chars "Optional. ") =
        f.description.drop (chars "Optional. ").length) := by
  constructor
  · simp [generate_docstring, descriptionPart, docstringFieldsPart,
      replace1_eq_removeFirstOcc, List.append_assoc]
  · intro h
    exact removeFirstOcc_of_isPre h

/-- Witness for C3's amended claim at a description that begins with the
full marker. -/
theorem c3_amended_witness :
    removeFirstOcc (chars "Optional. Pass True to enable.")
        (chars "Optional. ") =
      (chars "Optional. Pass True to enable.").drop
        (chars "Optional. ").length :=
  (c3_amended_description_strip rawFill
    ⟨chars "x", [chars "String"], true,
      chars "Optional. Pass True to enable."⟩).2 (by decide)

/-!
## Claim C9 — the `from` → `from_user` rename
-/

theorem fieldsPart_extract :
    ∀ (fs1 : List FieldModel) (first : Bool) (f : FieldModel)
      (fs2 : List FieldModel),
      ∃ u v, fieldsPart first (fs1 ++ f :: fs2) =
        u ++ ((if f.name = chars "from" then chars "from_user" else f.name) ++
          chars ": " ++ generate_field_type f ++
          (if f.required then [] else chars " = None")) ++ v := by
  intro fs1
  induction fs1 with
  | nil =>
    intro first f fs2
    refine ⟨(if first then [] else chars "    "),
      (if fs2.isEmpty then ([] : Str) else chars "\n") ++
        fieldsPart false fs2, ?_⟩
    simp [fieldsPart, List.append_assoc]
  | cons p fs1' ih =>
    intro first f fs2
    obtain ⟨u, v, hu⟩ := ih false f fs2
    refine ⟨(if first then [] else chars "    ") ++
      (if p.name = chars "from" then chars "from_user" else p.name) ++
      chars ": " ++ generate_field_type p ++
      (if p.required then [] else chars " = None") ++
      (if (fs1' ++ f :: fs2).isEmpty then [] else chars "\n") ++ u, v, ?_⟩
    show fieldsPart first (p :: (fs1' ++ f :: fs2)) = _
    simp only [fieldsPart]
    rw [hu]
    simp [List.append_assoc]

theorem docstringFieldsPart_extract (fill : Str → Str → Str → Str) :
    ∀ (fs1 : List FieldModel) (f : FieldModel) (fs2 : List FieldModel),
      ∃ u v, docstringFieldsPart fill (fs1 ++ f :: fs2) =
        u ++ fill ((if f.name = chars "from" then chars "from_user" else f.name) ++
          chars " (" ++ generate_field_type_docstring f ++ chars "):")
          (chars "        ") (chars "        ") ++ v := by
  intro fs1
  induction fs1 with
  | nil =>
    intro f fs2
    refine ⟨[], chars "\n" ++
      fill (if isPre (chars "Optional.") f.description then
          replace1 f.description (chars "Optional. ") []
        else f.description) (chars "            ") (chars "            ") ++
      (if fs2.isEmpty then ([] : Str) else chars "\n\n") ++
      docstringFieldsPart fill fs2, ?_⟩
    simp [docstringFieldsPart, List.append_assoc]
  | cons p fs1' ih =>
    intro f fs2
    obtain ⟨u, v, hu⟩ := ih f fs2
    refine ⟨fill ((if p.name = chars "from" then chars "from_user" else p.name) ++
        chars " (" ++ generate_field_type_docstring p ++ chars "):")
        (chars "        ") (chars "        ") ++ chars "\n" ++
      fill (if isPre (chars "Optional.") p.description then
          replace1 p.description (chars "Optional. ") []
        else p.description) (chars "            ") (chars "            ") ++
      (if (fs1' ++ f :: fs2).isEmpty then [] else chars "\n\n") ++ u, v, ?_⟩
    show docstringFieldsPart fill (p :: (fs1' ++ f :: fs2)) = _
    simp only [docstringFieldsPart]
    rw [hu]
    simp [List.append_assoc]

/-- C9: in every type, a field named exactly `from` renders as `from_user`
both in its docstring header line and in its declaration line, and every
other field name renders unchanged in both places. -/
theorem c9_from_renamed (fill : Str → Str → Str → Str)
    (fs1 fs2 : List FieldModel) (desc : List Str) (f g : FieldModel)
    (hf : f.name = chars "from") (hg : g.name ≠ chars "from") :
    (∃ u v, generate_fields (fs1 ++ f :: fs2) =
        u ++ (chars "from_user" ++ chars ": " ++ generate_field_type f ++
          (if f.required then [] else chars " = None")) ++ v) ∧
    (∃ u v, generate_docstring fill desc (fs1 ++ f :: fs2) =
        u ++ fill (chars "from_user" ++ chars " (" ++
            generate_field_type_docstring f ++ chars "):")
          (chars "        ") (chars "        ") ++ v) ∧
    (∃ u v, generate_fields (fs1 ++ g :: fs2) =
        u ++ (g.name ++ chars ": " ++ generate_field_type g ++
          (if g.required then [] else chars " = None")) ++ v) ∧
    (∃ u v, generate_docstring fill desc (fs1 ++ g :: fs2) =
        u ++ fill (g.name ++ chars " (" ++
            generate_field_type_docstring g ++ chars "):")
          (chars "        ") (chars "        ") ++ v) := by
  refine ⟨?_, ?_, ?_, ?_⟩
  · obtain ⟨u, v, hu⟩ := fieldsPart_extract fs1 true f fs2
    rw [hf, if_pos rfl] at hu
    exact ⟨u, v, hu⟩
  · obtain ⟨u, v, hu⟩ := docstringFieldsPart_extract fill fs1 f fs2
    rw [hf, if_pos rfl] at hu
    exact ⟨descriptionPart fill true desc ++
      (if (fs1 ++ f :: fs2).length > 0 then chars "\n\n    Parameters:\n"
        else []) ++ u, v,
      by rw [generate_docstring, hu]; simp [List.append_assoc]⟩
  · obtain ⟨u, v, hu⟩ := fieldsPart_extract fs1 true g fs2
    rw [if_neg hg] at hu
    exact ⟨u, v, hu⟩
  · obtain ⟨u, v, hu⟩ := docstringFieldsPart_extract fill fs1 g fs2
    rw [if_neg hg] at hu
    exact ⟨descriptionPart fill true desc ++
      (if (fs1 ++ g :: fs2).length > 0 then chars "\n\n    Parameters:\n"
        else []) ++ u, v,
      by rw [generate_docstring, hu]; simp [List.append_assoc]⟩

/-- Witness for C9 at a concrete `from` field and a concrete `chat`
field. -/
theorem c9_witness :
    ∃ u v, generate_fields [⟨chars "from", [chars "User"], false, []⟩] =
      u ++ chars "from_user: User | None = None" ++ v := by
  obtain ⟨u, v, h⟩ :=
    (c9_from_renamed rawFill [] [] []
      ⟨chars "from", [chars "User"], false, []⟩
      ⟨chars "chat", [chars "Chat"], true, []⟩ rfl (by decide)).1
  refine ⟨u, v, ?_⟩
  rw [List.nil_append] at h
  rw [h]
  rw [show chars "from_user" ++ chars ": " ++
      generate_field_type ⟨chars "from", [chars "User"], false, []⟩ ++
      (if (⟨chars "from", [chars "User"], false, []⟩ : FieldModel).required
        then [] else chars " = None") =
      chars "from_user: User | None = None" from by decide]

/-!
## The `sorted()` order on strings
-/

theorem strLe_total : ∀ a b : Str, strLe a b = true ∨ strLe b a = true := by
  intro a
  induction a with
  | nil => intro b; left; rfl
  | cons x as ih =>
    intro b
    cases b with
    | nil => right; rfl
    | cons y bs =>
      rcases lt_trichotomy x y with h | h | h
      · left; simp [strLe, h]
      · subst h
        rcases ih bs with h2 | h2
        · left; simp [strLe, lt_irrefl, h2]
        · right; simp [strLe, lt_irrefl, h2]
      · right; simp [strLe, h]

theorem strLe_trans :
    ∀ a b c : Str, strLe a b = true → strLe b c = true → strLe a c = true := by
  intro a
  induction a with
  | nil => intro b c _ _; rfl
  | cons x as ih =>
    intro b c hab hbc
    cases b with
    | nil => simp [strLe] at hab
    | cons y bs =>
      cases c with
      | nil => simp [strLe] at hbc
      | cons z cs =>
        by_cases hxy : x < y
        · by_cases hyz : y < z
          · simp [strLe, lt_trans hxy hyz]
          · simp only [strLe] at hbc
            rw [if_neg hyz] at hbc
            by_cases heq : y = z
            · subst heq
              simp [strLe, hxy]
            · rw [if_neg heq] at hbc
              exact absurd hbc (by simp)
        · simp only [strLe] at hab
          rw [if_neg hxy] at hab
          by_cases heq : x = y
          · subst heq
            rw [if_pos rfl] at hab
            by_cases hxz : x < z
            · simp [strLe, hxz]
            · simp only [strLe] at hbc
              rw [if_neg hxz] at hbc
              by_cases heq2 : x = z
              · subst heq2
                rw [if_pos rfl] at hbc
                simp [strLe, lt_irrefl, ih bs cs hab hbc]
              · rw [if_neg heq2] at hbc
                exact absurd hbc (by simp)
          · rw [if_neg heq] at hab
            exact absurd hab (by simp)

theorem strLe_antisymm :
    ∀ a b : Str, strLe a b = true → strLe b a = true → a = b := by
  intro a
  induction a with
  | nil =>
    intro b _ hba
    cases b with
    | nil => rfl
    | cons y bs => simp [strLe] at hba
  | cons x as ih =>
    intro b hab hba
    cases b with
    | nil => simp [strLe] at hab
    | cons y bs =>
      by_cases hxy : x < y
      · simp only [strLe] at hba
        rw [if_neg (lt_asymm hxy), if_neg (Ne.symm (ne_of_lt hxy))] at hba
        exact absurd hba (by simp)
      · simp only [strLe] at hab
        rw [if_neg hxy] at hab
        by_cases heq : x = y
        · subst heq
          rw [if_pos rfl] at hab
          simp only [strLe] at hba
          rw [if_neg hxy] at hba
          simp only [if_true] at hba
          rw [ih bs hab hba]
        · rw [if_neg heq] at hab
          exact absurd hab (by simp)

instance : IsTotal Str pyLe :=
  ⟨fun a b => strLe_total a b⟩

instance : IsTrans Str pyLe :=
  ⟨fun a b c hab hbc => strLe_trans a b c hab hbc⟩

instance : IsAntisymm Str pyLe :=
  ⟨fun a b hab hba => strLe_antisymm a b hab hba⟩

theorem pySorted_congr {l l2 : List Str} (h : l.Perm l2) :
    pySorted l = pySorted l2 :=
  List.eq_of_perm_of_sorted
    ((List.perm_insertionSort pyLe l).trans
      (h.trans (List.perm_insertionSort pyLe l2).symm))
    (List.sorted_insertionSort pyLe l)
    (List.sorted_insertionSort pyLe l2)

/-!
## Membership in the collected import set
-/

theorem setAdd_mem (acc : List Str) (y x : Str) :
    x ∈ setAdd acc y ↔ x ∈ acc ∨ x = y := by
  unfold setAdd
  by_cases h : y ∈ acc
  · rw [if_pos h]
    constructor
    · exact Or.inl
    · rintro (h2 | rfl)
      · exact h2
      · exact h
  · rw [if_neg h]
    simp

theorem setAdd_nodup {acc : List Str} (y : Str) (h : acc.Nodup) :
    (setAdd acc y).Nodup := by
  unfold setAdd
  by_cases hy : y ∈ acc
  · rwa [if_pos hy]
  · rw [if_neg hy]
    refine List.Nodup.append h (by simp) ?_
    intro a ha hb
    rw [List.mem_singleton] at hb
    subst hb
    exact hy ha

theorem mem_inner_fold (x : Str) :
    ∀ (types : List Str) (acc : List Str),
      (x ∈ types.foldl (fun acc type_name =>
          let type_name := importTokenName type_name
          if is_custom_type type_name then setAdd acc type_name else acc)
        acc) ↔
      x ∈ acc ∨ ∃ t ∈ types, importTokenName t = x ∧
        is_custom_type x = true := by
  intro types
  induction types with
  | nil => intro acc; simp
  | cons t rest ih =>
    intro acc
    rw [List.foldl_cons, ih]
    show (x ∈ (if is_custom_type (importTokenName t) then
        setAdd acc (importTokenName t) else acc)) ∨ _ ↔ _
    by_cases hc : is_custom_type (importTokenName t) = true
    · rw [if_pos hc, setAdd_mem]
      constructor
      · rintro ((ha | heq) | ⟨t2, h2, hx, hcx⟩)
        · exact Or.inl ha
        · subst heq
          exact Or.inr ⟨t, List.mem_cons_self t rest, rfl, hc⟩
        · exact Or.inr ⟨t2, List.mem_cons_of_mem t h2, hx, hcx⟩
      · rintro (ha | ⟨t2, h2, hx, hcx⟩)
        · exact Or.inl (Or.inl ha)
        · rcases List.mem_cons.mp h2 with rfl | h3
          · exact Or.inl (Or.inr hx.symm)
          · exact Or.inr ⟨t2, h3, hx, hcx⟩
    · rw [if_neg hc]
      constructor
      · rintro (ha | ⟨t2, h2, hx, hcx⟩)
        · exact Or.inl ha
        · exact Or.inr ⟨t2, List.mem_cons_of_mem t h2, hx, hcx⟩
      · rintro (ha | ⟨t2, h2, hx, hcx⟩)
        · exact Or.inl ha
        · rcases List.mem_cons.mp h2 with rfl | h3
          · exact absurd (by rw [hx]; exact hcx) hc
          · exact Or.inr ⟨t2, h3, hx, hcx⟩

theorem mem_outer_fold (x : Str) :
    ∀ (fields : List FieldModel) (acc : List Str),
      (x ∈ fields.foldl (fun acc field =>
          field.types.foldl (fun acc type_name =>
            let type_name := importTokenName type_name
            if is_custom_type type_name then setAdd acc type_name else acc)
            acc)
        acc) ↔
      x ∈ acc ∨ ∃ f ∈ fields, ∃ t ∈ f.types, importTokenName t = x ∧
        is_custom_type x = true := by
  intro fields
  induction fields with
  | nil => intro acc; simp
  | cons f rest ih =>
    intro acc
    rw [List.foldl_cons, ih, mem_inner_fold]
    constructor
    · rintro ((ha | ⟨t, ht, hx, hcx⟩) | ⟨f2, h2, t, ht, hx, hcx⟩)
      · exact Or.inl ha
      · exact Or.inr ⟨f, List.mem_cons_self f rest, t, ht, hx, hcx⟩
      · exact Or.inr ⟨f2, List.mem_cons_of_mem f h2, t, ht, hx, hcx⟩
    · rintro (ha | ⟨f2, h2, t, ht, hx, hcx⟩)
      · exact Or.inl (Or.inl ha)
      · rcases List.mem_cons.mp h2 with rfl | h3
        · exact Or.inl (Or.inr ⟨t, ht, hx, hcx⟩)
        · exact Or.inr ⟨f2, h3, t, ht, hx, hcx⟩

theorem mem_importResultSet (x : Str) (fields : List FieldModel) :
    x ∈ importResultSet fields ↔
      ∃ f ∈ fields, ∃ t ∈ f.types, importTokenName t = x ∧
        is_custom_type x = true := by
  rw [importResultSet, mem_outer_fold]
  simp

theorem inner_fold_nodup :
    ∀ (types : List Str) (acc : List Str), acc.Nodup →
      (types.foldl (fun acc type_name =>
          let type_name := importTokenName type_name
          if is_custom_type type_name then setAdd acc type_name else acc)
        acc).Nodup := by
  intro types
  induction types with
  | nil => intro acc h; exact h
  | cons t rest ih =>
    intro acc h
    rw [List.foldl_cons]
    apply ih
    show (if is_custom_type (importTokenName t) then
      setAdd acc (importTokenName t) else acc).Nodup
    by_cases hc : is_custom_type (importTokenName t) = true
    · rw [if_pos hc]; exact setAdd_nodup _ h
    · rwa [if_neg hc]

theorem importResultSet_nodup (fields : List FieldModel) :
    (importResultSet fields).Nodup := by
  rw [importResultSet]
  suffices h : ∀ (fs : List FieldModel) (acc : List Str), acc.Nodup →
      (fs.foldl (fun acc field =>
        field.types.foldl (fun acc type_name =>
          let type_name := importTokenName type_name
          if is_custom_type type_name then setAdd acc type_name else acc)
          acc) acc).Nodup from h fields [] List.nodup_nil
  intro fs
  induction fs with
  | nil => intro acc h; exact h
  | cons f rest ih =>
    intro acc h
    rw [List.foldl_cons]
    exact ih _ (inner_fold_nodup f.types acc h)

theorem mem_referencedNameList (x : Str) (fields : List FieldModel) :
    x ∈ referencedNameList fields ↔
      ∃ f ∈ fields, ∃ t ∈ f.types, importTokenName t = x ∧
        is_custom_type x = true := by
  rw [referencedNameList]
  simp only [List.mem_filter, List.mem_map, List.mem_flatMap]
  constructor
  · rintro ⟨⟨t, ⟨f, hf, ht⟩, rfl⟩, hc⟩
    exact ⟨f, hf, t, ht, rfl, hc⟩
  · rintro ⟨f, hf, t, ht, rfl, hc⟩
    exact ⟨⟨t, ⟨f, hf, ht⟩, rfl⟩, hc⟩

theorem importResultSet_perm (fields : List FieldModel) :
    (importResultSet fields).Perm (referencedNameList fields).dedup := by
  rw [List.perm_ext_iff_of_nodup (importResultSet_nodup fields)
    (List.nodup_dedup _)]
  intro a
  rw [List.mem_dedup, mem_importResultSet, mem_referencedNameList]

theorem importResultSet_eq_nil_iff (fields : List FieldModel) :
    importResultSet fields = [] ↔ referencedNameList fields = [] := by
  constructor
  · intro h
    have hp := importResultSet_perm fields
    rw [h] at hp
    exact (List.dedup_eq_nil _).mp hp.symm.eq_nil
  · intro h
    have hp := importResultSet_perm fields
    rw [h, List.dedup_nil] at hp
    exact hp.eq_nil

/-!
## Claim C4 — the dependency collector
-/

/-- C4: `generate_imports` collects exactly the deduplicated set of
referenced non-primitive type names — every field's every token,
normalized by stripping its `Array of ` wrapping before classification,
kept iff classified non-primitive — and renders that set name-sorted in
the deferred forward-reference import line. -/
theorem c4_import_collection (fields : List FieldModel) :
    (∀ x, x ∈ importResultSet fields ↔
      ∃ f ∈ fields, ∃ t ∈ f.types, importTokenName t = x ∧
        is_custom_type x = true) ∧
    (importResultSet fields).Nodup ∧
    pySorted (importResultSet fields) =
      pySorted ((referencedNameList fields).dedup) ∧
    (referencedNameList fields ≠ [] →
      (generate_imports fields).2 =
        chars "\n" ++ chars "if typing.TYPE_CHECKING:" ++ chars "\n" ++
          chars "    " ++ chars "from pybotgram.types import " ++
          strJoin (chars ", ")
            (pySorted ((referencedNameList fields).dedup)) ++
          chars "\n") := by
  refine ⟨fun x => mem_importResultSet x fields, importResultSet_nodup fields,
    pySorted_congr (importResultSet_perm fields), ?_⟩
  intro hne
  have hres : importResultSet fields ≠ [] := fun h =>
    hne ((importResultSet_eq_nil_iff fields).mp h)
  simp only [generate_imports, if_neg hres]
  rw [pySorted_congr (importResultSet_perm fields)]
  simp [List.append_assoc]

/-- Witness for C4 at a concrete field list with two references, one of
them array-wrapped, rendered in sorted order. -/
theorem c4_witness :
    (generate_imports
        [⟨chars "u", [chars "User", chars "Array of Chat"], true, []⟩]).2 =
      chars "\nif typing.TYPE_CHECKING:\n    from pybotgram.types import Chat, User\n" := by
  have h := (c4_import_collection
    [⟨chars "u", [chars "User", chars "Array of Chat"], true, []⟩]).2.2.2
    (by decide)
  rw [h]
  decide

/-!
## Claim C5 — empty import lines exactly when no references exist
-/

/-- C5: `generate_imports` returns two empty strings — no typing import
line and no deferred import block at all — if and only if the field list
contains no non-primitive type reference (every token, after
normalization, classified primitive or array-wrapped); when at least one
reference exists, both returned strings are non-empty. -/
theorem c5_empty_iff_no_refs (fields : List FieldModel) :
    ((generate_imports fields).1 = [] ∧ (generate_imports fields).2 = [] ↔
      referencedNameList fields = []) ∧
    (referencedNameList fields = [] ↔
      ∀ f ∈ fields, ∀ t ∈ f.types,
        is_custom_type (importTokenName t) = false) ∧
    (referencedNameList fields ≠ [] →
      (generate_imports fields).1 ≠ [] ∧
        (generate_imports fields).2 ≠ []) := by
  have hchar : referencedNameList fields = [] ↔
      ∀ f ∈ fields, ∀ t ∈ f.types,
        is_custom_type (importTokenName t) = false := by
    rw [List.eq_nil_iff_forall_not_mem]
    constructor
    · intro hall f hf t ht
      by_contra hc
      rw [Bool.not_eq_false] at hc
      exact hall (importTokenName t)
        ((mem_referencedNameList _ fields).mpr ⟨f, hf, t, ht, rfl, hc⟩)
    · intro hall x hx
      obtain ⟨f, hf, t, ht, rfl, hc⟩ :=
        (mem_referencedNameList x fields).mp hx
      rw [hall f hf t ht] at hc
      exact absurd hc (by simp)
  by_cases h : importResultSet fields = []
  · have h2 : referencedNameList fields = [] :=
      (importResultSet_eq_nil_iff fields).mp h
    refine ⟨?_, hchar, ?_⟩
    · simp [generate_imports, h, h2]
    · intro hne
      exact absurd h2 hne
  · have h2 : referencedNameList fields ≠ [] := fun hh =>
      h ((importResultSet_eq_nil_iff fields).mpr hh)
    refine ⟨?_, hchar, ?_⟩
    · simp only [generate_imports, if_neg h]
      constructor
      · rintro ⟨h1, _⟩
        rw [show (chars "\n" : Str) = ['\n'] from rfl] at h1
        simp at h1
      · intro hh
        exact absurd hh h2
    · intro _
      simp only [generate_imports, if_neg h]
      constructor
      · rw [show (chars "\n" : Str) = ['\n'] from rfl]
        simp
      · rw [show (chars "\n" : Str) = ['\n'] from rfl]
        simp

/-- Witness for C5 at a concrete field list with one reference. -/
theorem c5_witness :
    (generate_imports [⟨chars "u", [chars "User"], true, []⟩]).1 ≠ [] ∧
    (generate_imports [⟨chars "u", [chars "User"], true, []⟩]).2 ≠ [] :=
  (c5_empty_iff_no_refs [⟨chars "u", [chars "User"], true, []⟩]).2.2
    (by decide)

/-!
## Character class facts
-/

theorem isLo_not_isUp {c : Char} (h : isLo c = true) : isUp c = false := by
  rw [Bool.eq_false_iff]
  intro h2
  simp only [isLo, isUp, Bool.and_eq_true, decide_eq_true_eq] at h h2
  omega

theorem isUp_not_isLo {c : Char} (h : isUp c = true) : isLo c = false := by
  rw [Bool.eq_false_iff]
  intro h2
  simp only [isLo, isUp, Bool.and_eq_true, decide_eq_true_eq] at h h2
  omega

theorem isUp_not_isDig {c : Char} (h : isUp c = true) : isDig c = false := by
  rw [Bool.eq_false_iff]
  intro h2
  simp only [isDig, isUp, Bool.and_eq_true, decide_eq_true_eq] at h h2
  omega

theorem pyLower_of_isLo {c : Char} (h : isLo c = true) : pyLower c = c := by
  unfold pyLower
  rw [if_neg]
  simp [isLo_not_isUp h]

/-!
## Unfolding equations for the first substitution pass
-/

theorem lengthDropWhileLe (p : Char → Bool) :
    ∀ l : Str, (l.dropWhile p).length ≤ l.length := by
  intro l
  induction l with
  | nil => exact Nat.le_refl 0
  | cons a rest ih =>
    rw [List.dropWhile_cons]
    by_cases h : p a = true
    · rw [if_pos h]
      exact Nat.le_succ_of_le ih
    · rw [if_neg h]

theorem sub1F_succ (fuel : Nat) (c u : Char) (more : Str) :
    sub1F (fuel + 1) (c :: u :: more) =
      if isUp u then
        if (more.takeWhile isLo).isEmpty then c :: sub1F fuel (u :: more)
        else
          c :: '_' :: u ::
            (more.takeWhile isLo ++ sub1F fuel (more.dropWhile isLo))
      else c :: sub1F fuel (u :: more) := rfl

theorem sub1F_of_le :
    ∀ (fuel : Nat) (s : Str), s.length ≤ fuel → sub1F fuel s = sub1 s := by
  intro fuel
  induction fuel using Nat.strong_induction_on with
  | _ fuel ih =>
    intro s hle
    match fuel, s with
    | 0, [] => rfl
    | 0, c :: rest => simp at hle
    | fuel + 1, [] => rfl
    | fuel + 1, [c] => rfl
    | fuel + 1, c :: u :: more =>
      simp only [List.length_cons] at hle
      rw [sub1F_succ]
      rw [show sub1 (c :: u :: more) =
        sub1F (more.length + 1 + 1) (c :: u :: more) from rfl, sub1F_succ]
      have hmore : (u :: more).length ≤ fuel := by
        simp only [List.length_cons]; omega
      have hdrop : (more.dropWhile isLo).length ≤ fuel := by
        have := lengthDropWhileLe isLo more
        omega
      have hmore2 : (u :: more).length ≤ more.length + 1 := by
        simp only [List.length_cons]
        omega
      have hdrop2 : (more.dropWhile isLo).length ≤ more.length + 1 := by
        have := lengthDropWhileLe isLo more
        omega
      by_cases hup : isUp u = true
      · by_cases hemp : (more.takeWhile isLo).isEmpty = true
        · rw [if_pos hup, if_pos hup, if_pos hemp, if_pos hemp,
            ih fuel (Nat.lt_succ_self fuel) _ hmore,
            ih (more.length + 1) (by omega) _ hmore2]
        · rw [if_pos hup, if_pos hup, if_neg hemp, if_neg hemp,
            ih fuel (Nat.lt_succ_self fuel) _ hdrop,
            ih (more.length + 1) (by omega) _ hdrop2]
      · rw [if_neg hup, if_neg hup,
          ih fuel (Nat.lt_succ_self fuel) _ hmore,
          ih (more.length + 1) (by omega) _ hmore2]

theorem sub1_nil : sub1 [] = [] := rfl

theorem sub1_single (c : Char) : sub1 [c] = [c] := rfl

theorem sub1_cons₂ (c u : Char) (more : Str) :
    sub1 (c :: u :: more) =
      if isUp u then
        if (more.takeWhile isLo).isEmpty then c :: sub1 (u :: more)
        else
          c :: '_' :: u ::
            (more.takeWhile isLo ++ sub1 (more.dropWhile isLo))
      else c :: sub1 (u :: more) := by
  rw [show sub1 (c :: u :: more) =
    sub1F (more.length + 1 + 1) (c :: u :: more) from rfl, sub1F_succ]
  have hmore : (u :: more).length ≤ more.length + 1 := by
    simp only [List.length_cons]
    omega
  have hdrop : (more.dropWhile isLo).length ≤ more.length + 1 := by
    have := lengthDropWhileLe isLo more
    omega
  by_cases hup : isUp u = true
  · by_cases hemp : (more.takeWhile isLo).isEmpty = true
    · rw [if_pos hup, if_pos hup, if_pos hemp, if_pos hemp,
        sub1F_of_le _ _ hmore]
    · rw [if_pos hup, if_pos hup, if_neg hemp, if_neg hemp,
        sub1F_of_le _ _ hdrop]
  · rw [if_neg hup, if_neg hup, sub1F_of_le _ _ hmore]

/-!
## First pass over a word sequence
-/

theorem takeWhile_append_of_all {p : Char → Bool} :
    ∀ (l1 l2 : Str), (∀ c ∈ l1, p c = true) →
      (l2 = [] ∨ ∃ d t2, l2 = d :: t2 ∧ p d = false) →
      (l1 ++ l2).takeWhile p = l1 ∧ (l1 ++ l2).dropWhile p = l2 := by
  intro l1
  induction l1 with
  | nil =>
    intro l2 _ h2
    rcases h2 with rfl | ⟨d, t2, rfl, hd⟩
    · exact ⟨rfl, rfl⟩
    · constructor
      · rw [List.nil_append, List.takeWhile_cons, hd]
        simp
      · rw [List.nil_append, List.dropWhile_cons, hd]
        simp
  | cons x l1' ih =>
    intro l2 hall h2
    have hx : p x = true := hall x (List.mem_cons_self x l1')
    obtain ⟨ht, hd⟩ := ih l2 (fun c hc => hall c (List.mem_cons_of_mem x hc)) h2
    constructor
    · rw [List.cons_append, List.takeWhile_cons, hx]
      simp [ht]
    · rw [List.cons_append, List.dropWhile_cons, hx]
      simp [hd]

theorem sub1_all_lower :
    ∀ ls : Str, (∀ c ∈ ls, isLo c = true) → sub1 ls = ls := by
  intro ls
  induction ls with
  | nil => intro _; rfl
  | cons x rest ih =>
    intro hall
    cases rest with
    | nil => exact sub1_single x
    | cons u more =>
      have hu : isLo u = true := hall u (by simp)
      rw [sub1_cons₂, if_neg (by simp [isLo_not_isUp hu])]
      rw [ih (fun c hc => hall c (List.mem_cons_of_mem x hc))]

theorem sub1_run_step :
    ∀ (ls : Str), (∀ c ∈ ls, isLo c = true) → ls ≠ [] →
      ∀ (C : Char) (l2 tail2 : Str), isUp C = true →
        (∀ c ∈ l2, isLo c = true) → l2 ≠ [] →
        (tail2 = [] ∨ ∃ d t2, tail2 = d :: t2 ∧ isUp d = true) →
        sub1 (ls ++ C :: (l2 ++ tail2)) =
          ls ++ '_' :: C :: (l2 ++ sub1 tail2) := by
  intro ls
  induction ls with
  | nil => intro _ h; exact absurd rfl h
  | cons x ls' ih =>
    intro hall _ C l2 tail2 hC hl2 hl2ne htail
    have htail2 : tail2 = [] ∨ ∃ d t2, tail2 = d :: t2 ∧ isLo d = false := by
      rcases htail with rfl | ⟨d, t2, rfl, hd⟩
      · exact Or.inl rfl
      · exact Or.inr ⟨d, t2, rfl, isUp_not_isLo hd⟩
    obtain ⟨htake, hdrop⟩ := takeWhile_append_of_all l2 tail2 hl2 htail2
    cases ls' with
    | nil =>
      rw [List.singleton_append, sub1_cons₂, if_pos hC, htake, hdrop]
      rw [if_neg (by simp [List.isEmpty_iff, hl2ne])]
      rfl
    | cons y ls'' =>
      have hy : isLo y = true := hall y (by simp)
      rw [List.cons_append, List.cons_append, sub1_cons₂,
        if_neg (by simp [isLo_not_isUp hy])]
      rw [show y :: (ls'' ++ C :: (l2 ++ tail2)) =
        (y :: ls'') ++ C :: (l2 ++ tail2) from rfl]
      rw [ih (fun c hc => hall c (List.mem_cons_of_mem x hc)) (by simp)
        C l2 tail2 hC hl2 hl2ne htail]
      rfl

theorem wordsChars_cons (w : Char × List Char) (ws : List (Char × List Char)) :
    wordsChars (w :: ws) = wordChars w ++ wordsChars ws := by
  simp [wordsChars]

theorem wordsChars_head :
    ∀ ws : List (Char × List Char), (∀ w ∈ ws, goodWord w) →
      wordsChars ws = [] ∨ ∃ d t2, wordsChars ws = d :: t2 ∧ isUp d = true := by
  intro ws hgood
  cases ws with
  | nil => exact Or.inl rfl
  | cons w ws' =>
    right
    refine ⟨w.1, w.2 ++ wordsChars ws', ?_, (hgood w (by simp)).1⟩
    rw [wordsChars_cons]
    rfl

theorem sub1Chain_head :
    ∀ ws : List (Char × List Char), (∀ w ∈ ws, goodWord w) → ws ≠ [] →
      ∃ d t2, sub1Chain ws = d :: t2 ∧ isUp d = true := by
  intro ws hgood hne
  match ws with
  | [w] => exact ⟨w.1, w.2, rfl, (hgood w (by simp)).1⟩
  | w1 :: w2 :: rest =>
    refine ⟨w1.1, w1.2 ++ '_' :: wordChars w2 ++ sub1Chain rest, ?_,
      (hgood w1 (by simp)).1⟩
    show wordChars w1 ++ '_' :: wordChars w2 ++ sub1Chain rest = _
    simp [wordChars, List.append_assoc]

theorem sub1_words :
    ∀ ws : List (Char × List Char), (∀ w ∈ ws, goodWord w) →
      sub1 (wordsChars ws) = sub1Chain ws := by
  intro ws
  induction ws using sub1Chain.induct with
  | case1 =>
    intro _
    rfl
  | case2 w =>
    intro hgood
    obtain ⟨hup, hne, hlow⟩ := hgood w (by simp)
    rw [show wordsChars [w] = wordChars w from by
      rw [wordsChars_cons]; simp [wordsChars]]
    show sub1 (w.1 :: w.2) = wordChars w
    cases hw : w.2 with
    | nil => exact absurd hw hne
    | cons x l' =>
      have hx : isLo x = true := hlow x (by rw [hw]; simp)
      rw [sub1_cons₂, if_neg (by simp [isLo_not_isUp hx])]
      rw [show sub1 (x :: l') = x :: l' from
        sub1_all_lower (x :: l') (fun c hc => hlow c (by rw [hw]; exact hc))]
      rw [wordChars, hw]
  | case3 w1 w2 rest ih =>
    intro hgood
    have ihr := ih (fun w hw => hgood w (by simp [hw]))
    obtain ⟨hup1, hne1, hlow1⟩ := hgood w1 (by simp)
    obtain ⟨hup2, hne2, hlow2⟩ := hgood w2 (by simp)
    rw [wordsChars_cons, wordsChars_cons]
    cases hw1 : w1.2 with
    | nil => exact absurd hw1 hne1
    | cons x l1' =>
      have hx : isLo x = true := hlow1 x (by rw [hw1]; simp)
      have hl1 : ∀ c ∈ x :: l1', isLo c = true := fun c hc =>
        hlow1 c (by rw [hw1]; exact hc)
      rw [show wordChars w1 = w1.1 :: (x :: l1') from by rw [wordChars, hw1]]
      rw [show (w1.1 :: (x :: l1')) ++ (wordChars w2 ++ wordsChars rest) =
        w1.1 :: x :: (l1' ++ (wordChars w2 ++ wordsChars rest)) from by simp]
      rw [sub1_cons₂, if_neg (by simp [isLo_not_isUp hx])]
      rw [show x :: (l1' ++ (wordChars w2 ++ wordsChars rest)) =
        (x :: l1') ++ (wordChars w2 ++ wordsChars rest) from rfl]
      rw [show wordChars w2 ++ wordsChars rest =
        w2.1 :: (w2.2 ++ wordsChars rest) from by rw [wordChars]; rfl]
      rw [sub1_run_step (x :: l1') hl1 (by simp) w2.1 w2.2 (wordsChars rest)
        hup2 hlow2 hne2
        (wordsChars_head rest (fun w hw => hgood w (by simp [hw])))]
      rw [ihr]
      show _ = wordChars w1 ++ '_' :: wordChars w2 ++ sub1Chain rest
      rw [show wordChars w1 = w1.1 :: (x :: l1') from by rw [wordChars, hw1],
        wordChars]
      simp [List.append_assoc]

/-!
## Second pass over the chain
-/

theorem sub2_cons₂ (a b : Char) (rest : Str) :
    sub2 (a :: b :: rest) =
      if (isLo a || isDig a) && isUp b then a :: '_' :: b :: sub2 rest
      else a :: sub2 (b :: rest) := rfl

theorem sub2_upper_cons {C : Char} (h : isUp C = true) (xs : Str) :
    sub2 (C :: xs) = C :: sub2 xs := by
  cases xs with
  | nil => rfl
  | cons b rest =>
    rw [sub2_cons₂, if_neg]
    simp [isUp_not_isLo h, isUp_not_isDig h]

theorem sub2_underscore_cons (xs : Str) :
    sub2 ('_' :: xs) = '_' :: sub2 xs := by
  cases xs with
  | nil => rfl
  | cons b rest =>
    rw [sub2_cons₂, if_neg]
    simp [show isLo '_' = false from by decide,
      show isDig '_' = false from by decide]

theorem sub2_run_flat :
    ∀ ls : Str, (∀ c ∈ ls, isLo c = true) →
      ∀ xs : Str, (xs = [] ∨ ∃ d t2, xs = d :: t2 ∧ isUp d = false) →
        sub2 (ls ++ xs) = ls ++ sub2 xs := by
  intro ls
  induction ls with
  | nil => intro _ xs _; rfl
  | cons x ls' ih =>
    intro hall xs hxs
    have hx : isLo x = true := hall x (by simp)
    cases ls' with
    | nil =>
      rcases hxs with rfl | ⟨d, t2, rfl, hd⟩
      · rfl
      · rw [List.singleton_append, sub2_cons₂, if_neg (by simp [hd])]
        rfl
    | cons y ls'' =>
      have hy : isLo y = true := hall y (by simp)
      rw [List.cons_append, List.cons_append, sub2_cons₂,
        if_neg (by simp [isLo_not_isUp hy])]
      rw [show y :: (ls'' ++ xs) = (y :: ls'') ++ xs from rfl,
        ih (fun c hc => hall c (List.mem_cons_of_mem x hc)) xs hxs]
      rfl

theorem sub2_all_lower (ls : Str) (hall : ∀ c ∈ ls, isLo c = true) :
    sub2 ls = ls := by
  have h := sub2_run_flat ls hall [] (Or.inl rfl)
  rw [show sub2 ([] : Str) = [] from rfl, List.append_nil] at h
  exact h

theorem sub2_run_up :
    ∀ ls : Str, (∀ c ∈ ls, isLo c = true) → ls ≠ [] →
      ∀ C : Char, isUp C = true → ∀ xs : Str,
        sub2 (ls ++ C :: xs) = ls ++ '_' :: C :: sub2 xs := by
  intro ls
  induction ls with
  | nil => intro _ h; exact absurd rfl h
  | cons x ls' ih =>
    intro hall _ C hC xs
    have hx : isLo x = true := hall x (by simp)
    cases ls' with
    | nil =>
      rw [List.singleton_append, sub2_cons₂, if_pos (by simp [hx, hC])]
      rfl
    | cons y ls'' =>
      have hy : isLo y = true := hall y (by simp)
      rw [List.cons_append, List.cons_append, sub2_cons₂,
        if_neg (by simp [isLo_not_isUp hy])]
      rw [show y :: (ls'' ++ C :: xs) = (y :: ls'') ++ C :: xs from rfl,
        ih (fun c hc => hall c (List.mem_cons_of_mem x hc)) (by simp) C hC xs]
      rfl

theorem sub2_chain :
    ∀ ws : List (Char × List Char), (∀ w ∈ ws, goodWord w) →
      sub2 (sub1Chain ws) = strJoin (chars "_") (ws.map wordChars) := by
  intro ws
  induction ws using sub1Chain.induct with
  | case1 => intro _; rfl
  | case2 w =>
    intro hgood
    obtain ⟨hup, _, hlow⟩ := hgood w (by simp)
    show sub2 (w.1 :: w.2) = strJoin (chars "_") [wordChars w]
    rw [strJoin_single, sub2_upper_cons hup, sub2_all_lower w.2 hlow]
    rfl
  | case3 w1 w2 rest ih =>
    intro hgood
    have ihr := ih (fun w hw => hgood w (by simp [hw]))
    obtain ⟨hup1, hne1, hlow1⟩ := hgood w1 (by simp)
    obtain ⟨hup2, hne2, hlow2⟩ := hgood w2 (by simp)
    have hshape : sub1Chain (w1 :: w2 :: rest) =
        w1.1 :: (w1.2 ++ ('_' :: (w2.1 :: (w2.2 ++ sub1Chain rest)))) := by
      simp [sub1Chain, wordChars, List.append_assoc]
    rw [hshape]
    rw [sub2_upper_cons hup1,
      sub2_run_flat w1.2 hlow1 _ (Or.inr ⟨'_', _, rfl, by decide⟩),
      sub2_underscore_cons, sub2_upper_cons hup2]
    cases rest with
    | nil =>
      rw [show sub1Chain ([] : List (Char × List Char)) = [] from rfl,
        show w2.2 ++ ([] : Str) = w2.2 from by simp,
        sub2_all_lower w2.2 hlow2]
      simp only [List.map_cons, List.map_nil]
      rw [strJoin_cons₂, strJoin_single,
        show (chars "_" : Str) = ['_'] from rfl,
        show wordChars w1 = w1.1 :: w1.2 from rfl,
        show wordChars w2 = w2.1 :: w2.2 from rfl]
      simp [List.append_assoc]
    | cons w3 rest2 =>
      obtain ⟨d, t, hchain, hd⟩ := sub1Chain_head (w3 :: rest2)
        (fun w hw => hgood w (by simp [hw])) (by simp)
      rw [hchain, sub2_run_up w2.2 hlow2 hne2 d hd t]
      have hsub : d :: sub2 t =
          strJoin (chars "_") (wordChars w3 :: rest2.map wordChars) := by
        rw [← sub2_upper_cons hd, ← hchain]
        simpa only [List.map_cons] using ihr
      simp only [List.map_cons]
      rw [strJoin_cons₂, strJoin_cons₂, ← hsub,
        show (chars "_" : Str) = ['_'] from rfl,
        show wordChars w1 = w1.1 :: w1.2 from rfl,
        show wordChars w2 = w2.1 :: w2.2 from rfl]
      simp [List.append_assoc]

theorem map_strJoin (f : Char → Char) (sep : Str) :
    ∀ l : List Str, (strJoin sep l).map f =
      strJoin (sep.map f) (l.map fun x => x.map f) := by
  intro l
  induction l with
  | nil => rfl
  | cons x rest ih =>
    cases rest with
    | nil =>
      rw [strJoin_single, List.map_cons, List.map_nil, strJoin_single]
    | cons y rest2 =>
      rw [strJoin_cons₂, List.map_append, List.map_append, ih]
      simp only [List.map_cons]
      rw [strJoin_cons₂]

/-!
## Claim C8 — identifier normalization
-/

/-- C8: `camel_to_snake` maps `InlineQueryResult` to
`inline_query_result`, and for every name that is a concatenation of one
or more capitalized words (an upper-case initial followed by one or more
lower-case letters) it produces the lowercase, underscore-joined form of
those words. -/
theorem c8_camel_to_snake (ws : List (Char × List Char)) (_hws : ws ≠ [])
    (hgood : ∀ w ∈ ws, goodWord w) :
    camel_to_snake (chars "InlineQueryResult") = chars "inline_query_result" ∧
    camel_to_snake (wordsChars ws) = snakeOfWords ws := by
  refine ⟨by decide, ?_⟩
  rw [camel_to_snake, sub1_words ws hgood, sub2_chain ws hgood,
    map_strJoin, show (chars "_").map pyLower = chars "_" from by decide,
    snakeOfWords, List.map_map]
  rfl

/-- Witness for C8 at the three words of `InlineQueryResult`. -/
theorem c8_witness :
    camel_to_snake (wordsChars
      [('I', chars "nline"), ('Q', chars "uery"), ('R', chars "esult")]) =
      snakeOfWords
        [('I', chars "nline"), ('Q', chars "uery"), ('R', chars "esult")] :=
  (c8_camel_to_snake
    [('I', chars "nline"), ('Q', chars "uery"), ('R', chars "esult")]
    (by decide)
    (by intro w hw
        simp only [List.mem_cons, List.not_mem_nil, or_false] at hw
        rcases hw with rfl | rfl | rfl <;>
          exact ⟨by decide, by decide, by decide⟩)).2
